import Mathlib

/-!
Shallow embedding of the layout engine of a GameCube disc-image tool
(`src/game.rs`, `src/sections/layout_section.rs`) and proofs about it.

Machine integers (`u64`, 64-bit `usize`) are embedded as `Nat` with an
explicit `% 2^64` wherever the Rust arithmetic can wrap.
-/

/-- The modulus of `u64` / 64-bit `usize` arithmetic. -/
def U64 : Nat := 2 ^ 64

/-- Wrapping `u64` subtraction `a - b`, for `a, b < 2^64`. -/
def sub64 (a b : Nat) : Nat := (a + U64 - b) % U64

/-- Embeds `ROM_SIZE` from `game.rs`: the fixed total size of a rebuilt image. -/
def ROM_SIZE : Nat := 0x57058000

/-- Modelled from the spec: `APPLOADER_OFFSET` (the apploader's fixed offset,
`0x2440` per the spec's scenario; `apploader.rs` is not among the sources). -/
def APPLOADER_OFFSET : Nat := 0x2440

/-- The data every `LayoutSection` implementor exposes: `start()` and `len()`
(`layout_section.rs`). `start` is a `u64`, `len` a `usize`. -/
structure LayoutSection where
  start : Nat
  len : Nat
deriving DecidableEq

namespace LayoutSection

/-- Embeds `LayoutSection::end` (`layout_section.rs` line 25):
`self.start() + self.len() as u64 - 1` in wrapping `u64` arithmetic. -/
def endOff (s : LayoutSection) : Nat :=
  ((s.start + s.len) % U64 + U64 - 1) % U64

/-- Embeds `LayoutSection::compare_offset` (`layout_section.rs` line 39). -/
def compare_offset (s : LayoutSection) (offset : Nat) : Ordering :=
  if s.endOff < offset then .lt
  else if s.start > offset then .gt
  else .eq

/-- Embeds `LayoutSection::contains_offset` (`layout_section.rs` line 49). -/
def contains_offset (s : LayoutSection) (offset : Nat) : Bool :=
  s.compare_offset offset == .eq

end LayoutSection

/-- Embeds `ROMLayout::find_offset` (`game.rs` lines 365-379) with the code's
exact match arms: `Less => None`, `Equal => Some`, `Greater => keep scanning`. -/
def find_offset : List LayoutSection → Nat → Option LayoutSection
  | [], _ => none
  | s :: rest, offset =>
    match s.compare_offset offset with
    | .lt => none
    | .eq => some s
    | .gt => find_offset rest offset

/-- Embeds `write_zeros` (`game.rs` lines 315-328): the lengths of the slices
passed to `write_all`, one per loop iteration `i in 0..(count / W + 1)`, each
of length `min(W, count - W*i)`. `W` is the crate's `WRITE_CHUNK_SIZE`. -/
def write_zeros_chunks (count W : Nat) : List Nat :=
  (List.range (count / W + 1)).map (fun i => min W (count - W * i))

/-- Helper: when at least one full chunk fits, the first chunk is `W` and the
rest are the chunks of `count - W`. -/
theorem write_zeros_chunks_step (count W : Nat) (h0 : 0 < W) (h : W ≤ count) :
    write_zeros_chunks count W = W :: write_zeros_chunks (count - W) W := by
  unfold write_zeros_chunks
  rw [Nat.div_eq_sub_div h0 h]
  rw [show (count - W) / W + 1 + 1 = ((count - W) / W + 1) + 1 from rfl]
  rw [List.range_succ_eq_map]
  simp only [List.map_cons, List.map_map]
  congr 1
  · omega
  · apply List.map_congr_left
    intro i _
    simp only [Function.comp_apply, Nat.succ_eq_add_one, Nat.mul_add, Nat.mul_one]
    omega

/-- Helper: the total number of zero bytes written by `write_zeros` is `count`. -/
theorem write_zeros_chunks_sum (W : Nat) (h0 : 0 < W) :
    ∀ count : Nat, (write_zeros_chunks count W).sum = count := by
  intro count
  induction count using Nat.strong_induction_on with
  | _ count ih =>
    by_cases h : W ≤ count
    · rw [write_zeros_chunks_step count W h0 h, List.sum_cons,
        ih (count - W) (by omega)]
      omega
    · unfold write_zeros_chunks
      rw [Nat.div_eq_of_lt (by omega)]
      rw [show List.range 1 = [0] by decide]
      simp only [List.map_cons, List.map_nil, List.sum_cons,
        List.sum_nil, Nat.mul_zero]
      omega

/-- C9: `write_zeros(count)` writes exactly `count` zero bytes in chunks that
never exceed `WRITE_CHUNK_SIZE`; the loop's length expression
`count - WRITE_CHUNK_SIZE * i` never underflows (the subtrahend never exceeds
`count` for any loop index), and every chunk fits inside the zero buffer,
whose length is `min count W` after the `resize` call. -/
theorem write_zeros_spec (count W : Nat) (hW : 0 < W) :
    (write_zeros_chunks count W).sum = count ∧
    (∀ i, i ≤ count / W → W * i ≤ count) ∧
    (∀ c ∈ write_zeros_chunks count W, c ≤ min count W) := by
  refine ⟨write_zeros_chunks_sum W hW count, ?_, ?_⟩
  · intro i hi
    have := (Nat.le_div_iff_mul_le hW).mp hi
    rw [Nat.mul_comm]
    exact this
  · intro c hc
    unfold write_zeros_chunks at hc
    rw [List.mem_map] at hc
    obtain ⟨i, _, rfl⟩ := hc
    omega

/-- C9 witness: `write_zeros` at `count = 7`, `W = 3`. -/
theorem write_zeros_spec_witness :
    (write_zeros_chunks 7 3).sum = 7 ∧
    (∀ i, i ≤ 7 / 3 → 3 * i ≤ 7) ∧
    (∀ c ∈ write_zeros_chunks 7 3, c ≤ min 7 3) :=
  write_zeros_spec 7 3 (by decide)

/-- Helper: without `u64` overflow (`start + len ≤ 2^64`) and with a nonempty
section, `end()` computes `start + len - 1` exactly. -/
theorem endOff_eq (s : LayoutSection) (h1 : 1 ≤ s.len)
    (h2 : s.start + s.len ≤ U64) :
    s.endOff = s.start + s.len - 1 := by
  unfold LayoutSection.endOff U64
  unfold U64 at h2
  omega

/-- C10 counterexample: at `start = 2^64 - 1`, `len = 2` (both valid machine
values, `len ≥ 1`), the wrapping evaluation of `end()` yields `0`, so
`end() = start + len - 1` fails and so does `start ≤ end()`. -/
theorem endOff_overflow_cex :
    ¬ (LayoutSection.endOff ⟨U64 - 1, 2⟩ = (U64 - 1) + 2 - 1 ∧
       U64 - 1 ≤ LayoutSection.endOff ⟨U64 - 1, 2⟩) := by
  unfold LayoutSection.endOff U64
  norm_num

/-- C10 (amended): for every layout section with `len ≥ 1` whose span does not
overflow `u64` (`start + len ≤ 2^64`), `end()` equals `start + len - 1` with no
underflow and `start ≤ end()`. -/
theorem endOff_spec (s : LayoutSection) (h1 : 1 ≤ s.len)
    (h2 : s.start + s.len ≤ U64) :
    s.endOff = s.start + s.len - 1 ∧ s.start ≤ s.endOff := by
  have h := endOff_eq s h1 h2
  omega

/-- C10 witness: the game header region, `start = 0`, `len = 0x2440`. -/
theorem endOff_spec_witness :
    LayoutSection.endOff ⟨0, 0x2440⟩ = 0 + 0x2440 - 1 ∧
    (0 : Nat) ≤ LayoutSection.endOff ⟨0, 0x2440⟩ :=
  endOff_spec ⟨0, 0x2440⟩ (by decide) (by norm_num [U64])

/-- C6: `compare_offset(o)` returns `Less` exactly when `end < o`, `Greater`
exactly when `start > o`, and `Equal` exactly when the offset falls within the
region, `start ≤ o ≤ end`, with `end = start + len - 1` (stated for sections
whose `end()` is free of `u64` wrap: `len ≥ 1`, `start + len ≤ 2^64`). -/
theorem compare_offset_spec (s : LayoutSection) (o : Nat) (h1 : 1 ≤ s.len)
    (h2 : s.start + s.len ≤ U64) :
    (s.compare_offset o = .lt ↔ s.start + s.len - 1 < o) ∧
    (s.compare_offset o = .gt ↔ s.start > o) ∧
    (s.compare_offset o = .eq ↔ s.start ≤ o ∧ o ≤ s.start + s.len - 1) := by
  have h := endOff_eq s h1 h2
  unfold LayoutSection.compare_offset
  rw [h]
  split_ifs with ha hb <;>
    refine ⟨?_, ?_, ?_⟩ <;>
      simp only [reduceCtorEq, false_iff, true_iff, iff_false, iff_true] <;>
        omega

/-- C6 witness: the apploader region `{start := 0x2440, len := 0x100}` against
offset `0x2500`, which it contains. -/
theorem compare_offset_spec_witness :
    (LayoutSection.compare_offset ⟨0x2440, 0x100⟩ 0x2500 = .lt ↔
      0x2440 + 0x100 - 1 < 0x2500) ∧
    (LayoutSection.compare_offset ⟨0x2440, 0x100⟩ 0x2500 = .gt ↔
      0x2440 > 0x2500) ∧
    (LayoutSection.compare_offset ⟨0x2440, 0x100⟩ 0x2500 = .eq ↔
      0x2440 ≤ 0x2500 ∧ 0x2500 ≤ 0x2440 + 0x100 - 1) :=
  compare_offset_spec ⟨0x2440, 0x100⟩ 0x2500 (by decide) (by norm_num [U64])

/-- C2 (the code evaluated at the failing input): in the sorted layout
`[{start 0, len 1}, {start 2, len 1}]` the second section contains offset `2`
(`contains_offset` says so), yet `find_offset 2` returns `none`: the scan's
match arms treat `Less` (section entirely below the offset) as the early-exit
case instead of `Greater`. -/
theorem find_offset_cex :
    find_offset [⟨0, 1⟩, ⟨2, 1⟩] 2 = none ∧
    LayoutSection.contains_offset ⟨2, 1⟩ 2 = true := by
  decide

/-- Embeds the write loop of `Game::rebuild` (`game.rs` lines 263-288) at the
granularity of btree entries: for each `(offset, size)` in ascending-key order
it records the pair (zero bytes written by `write_zeros((offset -
bytes_written) as usize)`, file bytes written by `extract_section`), updating
`bytes_written = offset + size` in `u64`; after the last entry it records the
final `write_zeros(ROM_SIZE - bytes_written as usize)`. Both subtractions are
the wrapping machine subtraction `sub64`, exactly as in the unchecked Rust
arithmetic. -/
def rebuildChunks : List (Nat × Nat) → Nat → List (Nat × Nat)
  | [], cursor => [(sub64 ROM_SIZE cursor, 0)]
  | (offset, size) :: rest, cursor =>
    (sub64 offset cursor, size) :: rebuildChunks rest ((offset + size) % U64)

/-- Total number of bytes a chunk list writes (each chunk = gap + contents). -/
def chunksLength (cs : List (Nat × Nat)) : Nat :=
  (cs.map fun c => c.1 + c.2).sum

/-- Follows the spec's words (the refinement target for the rebuild gap
claim): between consecutive placed regions exactly
`next_offset - (prev_offset + prev_length)` zero bytes, and after the final
region exactly `ROM_SIZE - last_offset - last_length` zero bytes, in exact
(non-wrapping) arithmetic. -/
def specGapChunks : List (Nat × Nat) → Nat → List (Nat × Nat)
  | [], cursor => [(ROM_SIZE - cursor, 0)]
  | (offset, size) :: rest, cursor =>
    (offset - cursor, size) :: specGapChunks rest (offset + size)

/-- The entries are placed at ascending offsets from the cursor, without
overlap, and the last one ends inside the fixed `ROM_SIZE` image. -/
def chainFits : Nat → List (Nat × Nat) → Prop
  | cursor, [] => cursor ≤ ROM_SIZE
  | cursor, (offset, size) :: rest => cursor ≤ offset ∧ chainFits (offset + size) rest

/-- Helper: a fitting chain starts at or below `ROM_SIZE`. -/
theorem chainFits_le {c : Nat} {l : List (Nat × Nat)} (h : chainFits c l) :
    c ≤ ROM_SIZE := by
  induction l generalizing c with
  | nil => exact h
  | cons e rest ih =>
    obtain ⟨h1, h2⟩ := h
    exact le_trans h1 (le_trans (Nat.le_add_right _ _) (ih h2))

/-- Helper: on a fitting chain the wrapping subtractions of the rebuild loop
coincide with the exact gaps of the spec. -/
theorem rebuildChunks_eq_spec {l : List (Nat × Nat)} {c : Nat}
    (h : chainFits c l) : rebuildChunks l c = specGapChunks l c := by
  induction l generalizing c with
  | nil =>
    have hc : c ≤ ROM_SIZE := h
    unfold rebuildChunks specGapChunks sub64 U64
    unfold ROM_SIZE at hc ⊢
    congr 1
    congr 1
    omega
  | cons e rest ih =>
    obtain ⟨offset, size⟩ := e
    obtain ⟨h1, h2⟩ := h
    have he : offset + size ≤ ROM_SIZE := chainFits_le h2
    have hR : ROM_SIZE < U64 := by norm_num [ROM_SIZE, U64]
    have hmod : (offset + size) % U64 = offset + size :=
      Nat.mod_eq_of_lt (by omega)
    have hsub : sub64 offset c = offset - c := by
      unfold sub64
      unfold U64 at hR ⊢
      omega
    unfold rebuildChunks specGapChunks
    rw [hmod, hsub, ih h2]

/-- Helper: the spec's gaps add up: a fitting chain writes exactly
`ROM_SIZE - cursor` bytes in total. -/
theorem specGapChunks_length {l : List (Nat × Nat)} {c : Nat}
    (h : chainFits c l) : chunksLength (specGapChunks l c) = ROM_SIZE - c := by
  induction l generalizing c with
  | nil =>
    have hc : c ≤ ROM_SIZE := h
    unfold specGapChunks chunksLength
    simp
  | cons e rest ih =>
    obtain ⟨h1, h2⟩ := h
    have he : e.1 + e.2 ≤ ROM_SIZE := chainFits_le h2
    obtain ⟨offset, size⟩ := e
    unfold specGapChunks chunksLength
    simp only [List.map_cons, List.sum_cons]
    have := ih h2
    unfold chunksLength at this
    rw [this]
    simp only at h1 he
    omega

/-- C4: for every rebuild over an offset map whose entries are placed at
ascending non-overlapping offsets inside the image, the zero-fill between
consecutive regions is exactly `next_offset - (prev_offset + prev_length)`,
the final zero-fill is exactly `ROM_SIZE - last_offset - last_length` (the
rebuild loop's wrapping subtractions equal the spec's exact gaps), and the
total number of bytes written is exactly `ROM_SIZE`. -/
theorem rebuild_gaps_spec (l : List (Nat × Nat)) (h : chainFits 0 l) :
    rebuildChunks l 0 = specGapChunks l 0 ∧
    chunksLength (rebuildChunks l 0) = ROM_SIZE := by
  have h1 := rebuildChunks_eq_spec h
  have h2 := specGapChunks_length h
  rw [Nat.sub_zero] at h2
  exact ⟨h1, h1 ▸ h2⟩

/-- C4 witness: the header at offset 0 (size 0x2440) followed by the
apploader at offset 0x2440 (size 0x100). -/
theorem rebuild_gaps_spec_witness :
    chainFits 0 [(0, 0x2440), (0x2440, 0x100)] ∧
    (rebuildChunks [(0, 0x2440), (0x2440, 0x100)] 0 =
      specGapChunks [(0, 0x2440), (0x2440, 0x100)] 0 ∧
     chunksLength (rebuildChunks [(0, 0x2440), (0x2440, 0x100)] 0) = ROM_SIZE) := by
  have hc : chainFits 0 [(0, 0x2440), (0x2440, 0x100)] := by
    norm_num [chainFits, ROM_SIZE]
  exact ⟨hc, rebuild_gaps_spec _ hc⟩

/-- C3 (the code evaluated at the failing input): with consecutive btree
entries `(offset 0, size 10)` and `(offset 5, size 3)` — the second offset
lies strictly below the cursor (10) when it is reached — the rebuild loop does
not abort: the unchecked `offset - bytes_written` wraps and `write_zeros` is
asked for `2^64 - 5` padding bytes, after which the loop continues with the
second file's 3 bytes and the final fill. -/
theorem rebuild_overlap_wraps :
    rebuildChunks [(0, 10), (5, 3)] 0 =
      [(0, 10), (18446744073709551611, 3), (ROM_SIZE - 8, 0)] := by
  decide

/-- All bytes of the image `I` from cursor `c` on that are not covered by one
of the (ascending) regions are zero. -/
def gapsZero (I : List Nat) : Nat → List (Nat × Nat) → Prop
  | c, [] => ∀ p, c ≤ p → p < I.length → I.getD p 0 = 0
  | c, (offset, size) :: rest =>
    (∀ p, c ≤ p → p < offset → I.getD p 0 = 0) ∧ gapsZero I (offset + size) rest

/-- Modelled from the spec (the decoders live in source files outside `src/`):
a well-formed image is exactly `ROM_SIZE` bytes; its layout regions are at
ascending, non-overlapping offsets, are non-empty, and lie inside the image;
every byte outside the regions is zero. -/
def wellFormedImage (I : List Nat) (L : List (Nat × Nat)) : Prop :=
  I.length = ROM_SIZE ∧ chainFits 0 L ∧ gapsZero I 0 L ∧ ∀ r ∈ L, 0 < r.2

/-- Modelled from the spec: extraction copies each region's byte range
verbatim (`LayoutSection::extract` seeks to `start` and copies `len` bytes
into the region's file). -/
def extractRegion (I : List Nat) (offset size : Nat) : List Nat :=
  (I.drop offset).take size

/-- Modelled from the spec: extracting a whole image yields, for every region,
its offset paired with its verbatim bytes; rebuild later reads the offsets
back from the extracted header/FST (the decoders are symmetric per the spec)
and each region's bytes from its file. -/
def extractAll (I : List Nat) (L : List (Nat × Nat)) : List (Nat × List Nat) :=
  L.map fun r => (r.1, extractRegion I r.1 r.2)

/-- Embeds the byte stream written by `Game::rebuild` (`game.rs` lines
263-288): per entry, zero-fill `(offset - bytes_written) as usize` (wrapping
subtraction), then the entry's file bytes, with `bytes_written` becoming
`offset + size`; after the last entry, zero-fill `ROM_SIZE - bytes_written`. -/
def rebuildBytes : List (Nat × List Nat) → Nat → List Nat
  | [], cursor => List.replicate (sub64 ROM_SIZE cursor) 0
  | (offset, data) :: rest, cursor =>
    List.replicate (sub64 offset cursor) 0 ++ data ++
      rebuildBytes rest ((offset + data.length) % U64)

/-- Helper: a fully zero segment of the image is literally a `replicate`. -/
theorem segment_replicate (I : List Nat) (c o : Nat) (hco : c ≤ o)
    (ho : o ≤ I.length) (hz : ∀ p, c ≤ p → p < o → I.getD p 0 = 0) :
    (I.drop c).take (o - c) = List.replicate (o - c) 0 := by
  apply List.ext_getElem
  · simp
    omega
  · intro i h1 h2
    rw [List.getElem_take, List.getElem_drop, List.getElem_replicate]
    have hlen : i < o - c := by simpa using h2
    have hb : c + i < I.length := by omega
    have h3 := hz (c + i) (Nat.le_add_right c i) (by omega)
    rw [List.getD_eq_getElem] at h3
    exact h3

/-- Helper: on a well-formed image, replaying the rebuild loop over the
extracted regions from cursor `c` reproduces the image's suffix from `c`. -/
theorem rebuildBytes_extract (I : List Nat) (hlen : I.length = ROM_SIZE) :
    ∀ (L : List (Nat × Nat)) (c : Nat), chainFits c L → gapsZero I c L →
      rebuildBytes (extractAll I L) c = I.drop c := by
  intro L
  induction L with
  | nil =>
    intro c hcf hgz
    have hc : c ≤ ROM_SIZE := hcf
    have hR : ROM_SIZE < U64 := by norm_num [ROM_SIZE, U64]
    have hsub : sub64 ROM_SIZE c = ROM_SIZE - c := by
      unfold sub64
      unfold U64 at hR ⊢
      omega
    rw [show extractAll I [] = [] from rfl]
    unfold rebuildBytes
    rw [hsub]
    have hdrop : (I.drop c).length = I.length - c := by simp
    have htake : (I.drop c).take (I.length - c) = I.drop c := by
      rw [← hdrop]
      exact List.take_length _
    have hseg := segment_replicate I c I.length (by omega) (Nat.le_refl _)
      (fun p hp hq => hgz p hp hq)
    rw [htake] at hseg
    rw [hseg, hlen]
  | cons e rest ih =>
    intro c hcf hgz
    obtain ⟨offset, size⟩ := e
    obtain ⟨h1, h2⟩ := hcf
    obtain ⟨g1, g2⟩ := hgz
    have he : offset + size ≤ ROM_SIZE := chainFits_le h2
    have hR : ROM_SIZE < U64 := by norm_num [ROM_SIZE, U64]
    have hdl : (extractRegion I offset size).length = size := by
      unfold extractRegion
      simp
      omega
    rw [show extractAll I ((offset, size) :: rest) =
      (offset, extractRegion I offset size) :: extractAll I rest from rfl]
    unfold rebuildBytes
    rw [hdl]
    have hmod : (offset + size) % U64 = offset + size := by
      apply Nat.mod_eq_of_lt
      unfold ROM_SIZE at he
      unfold U64
      omega
    have hsub : sub64 offset c = offset - c := by
      unfold sub64
      unfold ROM_SIZE at he
      unfold U64 at hR ⊢
      omega
    rw [hmod, hsub, ih (offset + size) h2 g2]
    have hseg := segment_replicate I c offset h1 (by omega) g1
    rw [← hseg]
    have e1 : extractRegion I offset size ++ I.drop (offset + size) =
        I.drop offset := by
      unfold extractRegion
      rw [show I.drop (offset + size) = (I.drop offset).drop size by
        rw [List.drop_drop]]
      exact List.take_append_drop _ _
    have e3 : (I.drop c).drop (offset - c) = I.drop offset := by
      rw [List.drop_drop]
      congr 1
      omega
    rw [List.append_assoc, e1, ← e3]
    exact List.take_append_drop _ _

/-- C1: round-trip — for every well-formed image, extracting every region and
rebuilding from the extracted pieces reproduces the original image byte for
byte. -/
theorem rebuild_extract_roundtrip (I : List Nat) (L : List (Nat × Nat))
    (h : wellFormedImage I L) :
    rebuildBytes (extractAll I L) 0 = I := by
  obtain ⟨hlen, hcf, hgz, _⟩ := h
  have hr := rebuildBytes_extract I hlen L 0 hcf hgz
  simpa using hr

/-- C1 witness: the all-zero `ROM_SIZE`-byte image with one 16-byte region at
offset 0. -/
theorem rebuild_extract_roundtrip_witness :
    wellFormedImage (List.replicate ROM_SIZE 0) [(0, 16)] ∧
    rebuildBytes (extractAll (List.replicate ROM_SIZE 0) [(0, 16)]) 0 =
      List.replicate ROM_SIZE 0 := by
  have hwf : wellFormedImage (List.replicate ROM_SIZE 0) [(0, 16)] := by
    refine ⟨by simp, ?_, ?_, ?_⟩
    · norm_num [chainFits, ROM_SIZE]
    · refine ⟨fun p hp hq => absurd hq (by omega), fun p hp hq => ?_⟩
      rcases Nat.lt_or_ge p (List.replicate ROM_SIZE (0 : Nat)).length with hlt | hge
      · rw [List.getD_eq_getElem _ _ hlt, List.getElem_replicate]
      · rw [List.getD_eq_default _ _ hge]
    · intro r hr
      simp only [List.mem_singleton] at hr
      simp [hr]
  exact ⟨hwf, rebuild_extract_roundtrip _ _ hwf⟩

/-- An FST entry as `rom_layout` sees it: `Entry::as_file` yields the file's
layout section (`start = file_offset`, `len = length`) for file entries and
nothing for directory entries (`fst.rs` is outside `src/`; modelled from the
spec's FST data model). -/
inductive FSTEntry where
  | file (s : LayoutSection)
  | dir
deriving DecidableEq

/-- Embeds `Entry::as_file` as used by `Game::rom_layout`. -/
def FSTEntry.as_file : FSTEntry → Option LayoutSection
  | .file s => some s
  | .dir => none

/-- The pieces of a `Game` that `Game::rom_layout` (`game.rs` lines 47-75)
collects: the four unique sections, the DOL's text and data segments (a
segment's `size` is its layout length) and the FST's flat entry array. -/
structure Game where
  header : LayoutSection
  apploader : LayoutSection
  dol : LayoutSection
  text_segments : List LayoutSection
  data_segments : List LayoutSection
  fst : LayoutSection
  fst_entries : List FSTEntry

/-- The `Ord` instance of `layout_section.rs` (lines 63-81) as a boolean
relation: sections compare by `start`. -/
def startLe (a b : LayoutSection) : Bool := decide (a.start ≤ b.start)

/-- Helper: `startLe` is transitive. -/
theorem startLe_trans :
    ∀ (a b c : LayoutSection), startLe a b → startLe b c → startLe a c := by
  intro a b c h1 h2
  simp only [startLe, decide_eq_true_eq] at h1 h2 ⊢
  omega

/-- Helper: `startLe` is total. -/
theorem startLe_total : ∀ (a b : LayoutSection), startLe a b || startLe b a := by
  intro a b
  simp only [startLe]
  rcases Nat.le_total a.start b.start with h | h <;> simp [h]

/-- Embeds `Game::rom_layout`: push the header, apploader and DOL header,
every segment with non-zero size, the FST, and every FST entry that is a
file, then `sort_unstable` by the `Ord` instance (ascending `start`). -/
def Game.rom_layout (g : Game) : List LayoutSection :=
  ((g.header :: g.apploader :: g.dol ::
      (g.text_segments ++ g.data_segments).filter (fun s => s.len != 0)) ++
    (g.fst :: g.fst_entries.filterMap FSTEntry.as_file)).mergeSort startLe

/-- C5: for every opened image the constructed layout consists of exactly the
four unique regions, every executable segment of non-zero size (zero-size
segments are excluded by the filter), and every FST entry denoting a file —
as a multiset identity (`Perm`) — and the resulting list is sorted ascending
by start offset. (Immutability after construction is inherent: `ROMLayout`'s
field is private and it exposes no mutating method.) -/
theorem rom_layout_spec (g : Game) :
    g.rom_layout.Perm
      ([g.header, g.apploader, g.dol, g.fst] ++
        ((g.text_segments ++ g.data_segments).filter (fun s => s.len != 0) ++
          g.fst_entries.filterMap FSTEntry.as_file)) ∧
    g.rom_layout.Sorted (fun a b => a.start ≤ b.start) := by
  constructor
  · refine (List.mergeSort_perm _ _).trans ?_
    exact .cons _ (.cons _ (.cons _ List.perm_middle))
  · have hp := List.sorted_mergeSort startLe_trans startLe_total
      ((g.header :: g.apploader :: g.dol ::
          (g.text_segments ++ g.data_segments).filter (fun s => s.len != 0)) ++
        (g.fst :: g.fst_entries.filterMap FSTEntry.as_file))
    exact hp.imp (fun h => by simpa [startLe] using h)

/-- Path join for relative paths as `PathBuf::join` behaves in
`fill_files_btree` (empty prefix at the root, otherwise `pre/name`). -/
def pjoin (pre name : String) : String :=
  if pre = "" then name else pre ++ "/" ++ name

/-- The `BTreeMap<u64, PathBuf>` of `make_sections_btree`, as a lookup
function from offsets to paths. -/
abbrev PathMap := Nat → Option String

/-- Embeds `BTreeMap::insert`: the new binding shadows any earlier one for
the same key. -/
def mapInsert (k : Nat) (v : String) (m : PathMap) : PathMap :=
  fun q => if q = k then some v else m q

/-- An FST directory-tree node as `fill_files_btree` traverses it via
`DirectoryEntry::iter_contents` (`fst.rs` is outside `src/`; the recursive
child enumeration is modelled from the spec's FST data model). -/
inductive FstNode where
  | file (name : String) (offset size : Nat)
  | dir (name : String) (children : List FstNode)

/-- Embeds `fill_files_btree` (`game.rs` lines 336-360): walk a directory's
contents; a file inserts `file_offset ↦ prefix.join(name)`; a directory
recurses with its name appended to the prefix. -/
def fill_files_btree (m : PathMap) : List FstNode → String → PathMap
  | [], _ => m
  | .file n o _ :: rest, pre =>
    fill_files_btree (mapInsert o (pjoin pre n) m) rest pre
  | .dir n cs :: rest, pre =>
    fill_files_btree (fill_files_btree m cs (pjoin pre n)) rest pre

/-- Follows the spec's words (the reference enumeration for the offset→path
map): the ordinary files reachable by the recursive directory walk, each
paired with its ancestor-prefixed relative path. -/
def filesOf : List FstNode → String → List (Nat × String)
  | [], _ => []
  | .file n o _ :: rest, pre => (o, pjoin pre n) :: filesOf rest pre
  | .dir n cs :: rest, pre => filesOf cs (pjoin pre n) ++ filesOf rest pre

/-- Helper: `fill_files_btree` leaves keys it never inserts unchanged. -/
theorem fill_files_btree_not_mem :
    ∀ (m : PathMap) (es : List FstNode) (pre : String) (k : Nat),
      k ∉ (filesOf es pre).map Prod.fst →
      fill_files_btree m es pre k = m k := by
  intro m es pre
  induction m, es, pre using fill_files_btree.induct with
  | case1 m pre =>
    intro k hk
    simp only [fill_files_btree]
  | case2 m n o sz rest pre ih =>
    intro k hk
    simp only [filesOf, List.map_cons, List.mem_cons] at hk
    push_neg at hk
    simp only [fill_files_btree]
    rw [ih k hk.2]
    simp only [mapInsert]
    simp [hk.1]
  | case3 m n cs rest pre ih1 ih2 =>
    intro k hk
    simp only [filesOf, List.map_append, List.mem_append] at hk
    push_neg at hk
    simp only [fill_files_btree]
    rw [ih2 k hk.2, ih1 k hk.1]

/-- Helper: when the walked file offsets are distinct, every walked file is
bound to its ancestor-prefixed path in the finished map. -/
theorem fill_files_btree_mem :
    ∀ (m : PathMap) (es : List FstNode) (pre : String) (o : Nat) (p : String),
      ((filesOf es pre).map Prod.fst).Nodup →
      (o, p) ∈ filesOf es pre →
      fill_files_btree m es pre o = some p := by
  intro m es pre
  induction m, es, pre using fill_files_btree.induct with
  | case1 m pre =>
    intro o p _ hmem
    simp [filesOf] at hmem
  | case2 m n o' sz rest pre ih =>
    intro o p hnd hmem
    simp only [filesOf, List.map_cons, List.nodup_cons] at hnd
    simp only [filesOf, List.mem_cons] at hmem
    rcases hmem with heq | hmem
    · obtain ⟨rfl, rfl⟩ := Prod.mk.injEq _ _ _ _ ▸ heq
      simp only [fill_files_btree]
      rw [fill_files_btree_not_mem _ _ _ _ hnd.1]
      simp [mapInsert]
    · simp only [fill_files_btree]
      exact ih o p hnd.2 hmem
  | case3 m n cs rest pre ih1 ih2 =>
    intro o p hnd hmem
    simp only [filesOf, List.map_append, List.nodup_append] at hnd
    simp only [filesOf, List.mem_append] at hmem
    rcases hmem with hmem | hmem
    · have ho : o ∈ (filesOf cs (pjoin pre n)).map Prod.fst :=
        List.mem_map_of_mem Prod.fst hmem
      have hno : o ∉ (filesOf rest pre).map Prod.fst :=
        fun hc => hnd.2.2 ho hc
      simp only [fill_files_btree]
      rw [fill_files_btree_not_mem _ _ _ _ hno]
      exact ih1 o p hnd.1 hmem
    · simp only [fill_files_btree]
      exact ih2 o p hnd.2.1 hmem

/-- Embeds `Game::make_sections_btree` (`game.rs` lines 290-312): fill the
map from the FST's root directory contents with an empty prefix, then insert
the four system entries — header at 0, apploader at `APPLOADER_OFFSET`, FST
at `header.fst_offset`, DOL at `header.dol_offset`, in that order (last
insert wins). The two header fields are the function's only inputs read from
the decoded header. -/
def make_sections_btree (dol_offset fst_offset : Nat)
    (root : List FstNode) : PathMap :=
  mapInsert dol_offset "&&systemdata/Start.dol"
    (mapInsert fst_offset "&&systemdata/Game.toc"
      (mapInsert APPLOADER_OFFSET "&&systemdata/Apploader.ldr"
        (mapInsert 0 "&&systemdata/ISO.hdr"
          (fill_files_btree (fun _ => none) root ""))))

/-- C7: when the four system offsets are distinct and the walked file offsets
are distinct and disjoint from them (a well-formed image), the rebuilt
offset→path map contains the four fixed system entries — header at 0,
apploader at `APPLOADER_OFFSET`, FST at the header's FST offset, executable
at the header's DOL offset — and, in addition, one entry for every ordinary
file reachable by the recursive FST walk, keyed by the file's offset and
mapped to its ancestor-prefixed relative path. -/
theorem make_sections_btree_spec (dol_offset fst_offset : Nat)
    (root : List FstNode)
    (hsys : [0, APPLOADER_OFFSET, fst_offset, dol_offset].Nodup)
    (hnd : ((filesOf root "").map Prod.fst).Nodup)
    (hdisj : ∀ q ∈ (filesOf root "").map Prod.fst,
      q ∉ [0, APPLOADER_OFFSET, fst_offset, dol_offset]) :
    make_sections_btree dol_offset fst_offset root 0 =
      some "&&systemdata/ISO.hdr" ∧
    make_sections_btree dol_offset fst_offset root APPLOADER_OFFSET =
      some "&&systemdata/Apploader.ldr" ∧
    make_sections_btree dol_offset fst_offset root fst_offset =
      some "&&systemdata/Game.toc" ∧
    make_sections_btree dol_offset fst_offset root dol_offset =
      some "&&systemdata/Start.dol" ∧
    ∀ op ∈ filesOf root "",
      make_sections_btree dol_offset fst_offset root op.1 = some op.2 := by
  simp only [List.nodup_cons, List.mem_cons, List.not_mem_nil, or_false,
    List.nodup_nil, and_true] at hsys
  push_neg at hsys
  obtain ⟨⟨hs1, hs2, hs3⟩, ⟨hs4, hs5⟩, hs6⟩ := hsys
  refine ⟨?_, ?_, ?_, ?_, ?_⟩
  · unfold make_sections_btree mapInsert
    simp [hs1, hs2, hs3]
  · unfold make_sections_btree mapInsert
    simp [hs4, hs5]
  · unfold make_sections_btree mapInsert
    simp [hs6.1]
  · unfold make_sections_btree mapInsert
    simp
  · intro op hop
    have hkey : op.1 ∈ (filesOf root "").map Prod.fst :=
      List.mem_map_of_mem Prod.fst hop
    have hd := hdisj op.1 hkey
    simp only [List.mem_cons, List.not_mem_nil, or_false] at hd
    push_neg at hd
    unfold make_sections_btree mapInsert
    simp only [hd.1, hd.2.1, hd.2.2.1, hd.2.2.2, if_false]
    exact fill_files_btree_mem _ root "" op.1 op.2 hnd
      (by obtain ⟨o, p⟩ := op; exact hop)

/-- C7 witness: a header with DOL offset `0x3000` and FST offset `0x5000`,
and a root directory holding one file `a.bin` at offset `0x6000`. -/
theorem make_sections_btree_spec_witness :
    make_sections_btree 0x3000 0x5000 [.file "a.bin" 0x6000 0x10] 0 =
      some "&&systemdata/ISO.hdr" ∧
    make_sections_btree 0x3000 0x5000 [.file "a.bin" 0x6000 0x10] 0x6000 =
      some "a.bin" := by
  have h := make_sections_btree_spec 0x3000 0x5000 [.file "a.bin" 0x6000 0x10]
    (by norm_num [APPLOADER_OFFSET])
    (by simp [filesOf])
    (by simp [filesOf, pjoin, APPLOADER_OFFSET])
  refine ⟨h.1, ?_⟩
  have h2 := h.2.2.2.2 (0x6000, "a.bin") (by simp [filesOf, pjoin])
  exact h2

/-- A DOL segment kind (`Text` or `Data`) as `Segment::parse_segment_name`
returns it (`dol/segment.rs` is outside `src/`). -/
inductive SegKind where
  | text
  | data
deriving DecidableEq

/-- Modelled from the spec: the name-resolution collaborators of
`Game::extract_section_with_name` that live outside `src/` —
`FST::entry_with_name` (full-path lookup in the FST, returning the entry's
index when found), `Segment::parse_segment_name` (the segment-naming scheme:
a segment type plus index) and `DOLHeader::find_segment`. -/
structure NameResolution where
  entry_with_name : String → Option Nat
  parse_segment_name : String → Option (SegKind × Nat)
  find_segment : SegKind → Nat → Option LayoutSection

/-- Embeds `Game::extract_section_with_name` (`game.rs` lines 167-210),
abstracting file I/O as succeeding: the `io::Result<bool>` outcome is
`some found?`. The four fixed system names extract their unique section; an
FST entry found by full path is extracted; a parsed segment name is looked up
among the DOL's segments; everything else is `Ok(false)`. -/
def extract_section_with_name (r : NameResolution) (filename : String) :
    Option Bool :=
  if filename = "&&systemdata/ISO.hdr" then some true
  else if filename = "&&systemdata/Apploader.ldr" then some true
  else if filename = "&&systemdata/Start.dol" then some true
  else if filename = "&&systemdata/Game.toc" then some true
  else
    match r.entry_with_name filename with
    | some _ => some true
    | none =>
      match r.parse_segment_name filename with
      | some (t, n) =>
        match r.find_segment t n with
        | some _ => some true
        | none => some false
      | none => some false

/-- C8: a name-addressed extraction whose path resolves to none of the four
fixed system names, no FST entry, and no executable segment returns the
"not found" value `Ok(false)` — not an error. -/
theorem extract_section_with_name_not_found (r : NameResolution)
    (filename : String)
    (h1 : filename ∉ ["&&systemdata/ISO.hdr", "&&systemdata/Apploader.ldr",
      "&&systemdata/Start.dol", "&&systemdata/Game.toc"])
    (h2 : r.entry_with_name filename = none)
    (h3 : ∀ t n, r.parse_segment_name filename = some (t, n) →
      r.find_segment t n = none) :
    extract_section_with_name r filename = some false := by
  simp only [List.mem_cons, List.not_mem_nil, or_false] at h1
  push_neg at h1
  obtain ⟨e1, e2, e3, e4⟩ := h1
  unfold extract_section_with_name
  rw [if_neg e1, if_neg e2, if_neg e3, if_neg e4, h2]
  rcases hp : r.parse_segment_name filename with _ | ⟨t, n⟩
  · simp
  · simp [h3 t n hp]

/-- C8 witness: a resolver in which nothing resolves, queried with the name
`foo`. -/
theorem extract_section_with_name_not_found_witness :
    extract_section_with_name
      ⟨fun _ => none, fun _ => none, fun _ _ => none⟩ "foo" = some false :=
  extract_section_with_name_not_found
    ⟨fun _ => none, fun _ => none, fun _ _ => none⟩ "foo"
    (by decide) rfl (fun t n h => by simp at h)
